import Mathlib

/-!
# Verification of the Study Assistant backend services

Shallow embedding of `backend/app/services` (`embedding_service.py`,
`search_service.py`, `paper_service.py`): the text chunker, the embedder,
cosine similarity, the vector-search post-processing pipeline
(deduplicate by document, sort by score, truncate), paper (re)indexing
and upload deduplication.

Modelling conventions:
* Python `str` is modelled as `List Char`; Python `float` scores and
  vector components as `ℚ` (exact values of the floats involved in the
  properties below; no rounding behaviour is claimed).
* The external embedding model (SentenceTransformers) is an injected
  capability `List Char → List ℚ`, per the spec's interface boundary.
* The database is modelled by explicit parameters: the raw row lists a
  SQL query returns, a lookup function `Nat → Option Paper`, and an
  explicit store `List EmbRow` for the `paper_embeddings` table.
* The `while` loop of `chunk_text` is given explicit fuel; `none` models
  non-termination of the source loop (possible only when
  `overlap ≥ chunk_size`, see `chunkLoop_isSome`).
-/

/-! ## Chunker: `embedding_service.chunk_text` -/

/-- Helper for Python `str.split()`: walks the characters, `acc` holds the
current (reversed) in-progress word. -/
def pySplitAux : List Char → List Char → List (List Char)
  | [], acc => if acc = [] then [] else [acc.reverse]
  | c :: cs, acc =>
    if c.isWhitespace then
      if acc = [] then pySplitAux cs []
      else acc.reverse :: pySplitAux cs []
    else pySplitAux cs (c :: acc)

/-- Python `text.split()` (no separator argument): split on runs of
whitespace, discarding empty strings. -/
def pySplit (s : List Char) : List (List Char) := pySplitAux s []

/-- Python `" ".join(words)`. -/
def joinSpace : List (List Char) → List Char
  | [] => []
  | w :: ws => w ++ (ws.map (fun v => ' ' :: v)).flatten

/-- The `while start < len(words)` loop of `chunk_text`, with explicit
fuel.  Each iteration emits `" ".join(words[start:start+chunk_size])`,
stops when `start + chunk_size ≥ len(words)`, and otherwise advances
`start` to `start + chunk_size - overlap` (the source computes
`end - overlap` with Python ints; for `overlap ≤ start + chunk_size` —
in particular whenever `overlap < chunk_size` — the `Nat` subtraction
agrees with the source).  `none` models non-termination of the source
loop. -/
def chunkLoop (words : List (List Char)) (chunk_size overlap : Nat) :
    Nat → Nat → Option (List (List Char))
  | 0, _ => none
  | fuel + 1, start =>
    if start < words.length then
      let chunk := joinSpace ((words.drop start).take chunk_size)
      if words.length ≤ start + chunk_size then
        some [chunk]
      else
        (chunkLoop words chunk_size overlap fuel (start + chunk_size - overlap)).map
          (fun rest => chunk :: rest)
    else
      some []

/-- `embedding_service.chunk_text(text, chunk_size=500, overlap=50)`.
Fuel `words.length` always suffices when `overlap < chunk_size`
(`chunk_text_isSome`). -/
def chunk_text (text : List Char) (chunk_size : Nat := 500) (overlap : Nat := 50) :
    Option (List (List Char)) :=
  if text = [] then some []
  else
    let words := pySplit text
    if words.length ≤ chunk_size then some [text]
    else chunkLoop words chunk_size overlap words.length 0

/-! ## Embedder: `embedding_service.generate_embedding`,
`generate_embeddings_batch`, `cosine_similarity` -/

/-- Python `str.strip()`: remove leading and trailing whitespace. -/
def pyStrip (s : List Char) : List Char :=
  ((s.dropWhile Char.isWhitespace).reverse.dropWhile Char.isWhitespace).reverse

/-- Python `not text or not text.strip()`. -/
def isBlank (s : List Char) : Bool := s.isEmpty || (pyStrip s).isEmpty

/-- `embedding_service.generate_embedding(text)`; the model
`all-MiniLM-L6-v2` is the injected capability `model`.  Blank input
returns the 384-dimensional zero vector before the model is ever
consulted; otherwise texts longer than 8000 characters are truncated
and passed to the model. -/
def generate_embedding (model : List Char → List ℚ) (text : List Char) : List ℚ :=
  if isBlank text then List.replicate 384 0
  else
    let text1 := if 8000 < text.length then text.take 8000 else text
    model text1

/-- The per-text cleaning step of `generate_embeddings_batch`: blank
texts become `""`, texts longer than 8000 characters are truncated,
others pass through. -/
def cleanText (text : List Char) : List Char :=
  if isBlank text then []
  else if 8000 < text.length then text.take 8000
  else text

/-- `embedding_service.generate_embeddings_batch(texts)`: empty input
short-circuits to `[]`; otherwise every text is cleaned by `cleanText`
and the whole cleaned list is encoded by the model.  The external
model's batch encode is modelled as `List.map model` (the model
contract: one vector per input, in input order). -/
def generate_embeddings_batch (model : List Char → List ℚ)
    (texts : List (List Char)) : List (List ℚ) :=
  if texts = [] then []
  else (texts.map cleanText).map model

/-- `np.dot(a, b)` for (equal-length) vectors. -/
def dot (a b : List ℚ) : ℚ := (List.zipWith (· * ·) a b).sum

/-- The sum of squares of a vector, so that
`np.linalg.norm a = Real.sqrt (sumSq a)`. -/
def sumSq (a : List ℚ) : ℚ := dot a a

/-- `np.linalg.norm(a)` (the Euclidean norm). -/
noncomputable def pynorm (a : List ℚ) : ℝ := Real.sqrt (sumSq a)

open Classical in
/-- `embedding_service.cosine_similarity(vec1, vec2)`. -/
noncomputable def cosine_similarity (vec1 vec2 : List ℚ) : ℝ :=
  if pynorm vec1 = 0 ∨ pynorm vec2 = 0 then 0
  else (dot vec1 vec2 : ℝ) / (pynorm vec1 * pynorm vec2)

/-! ## Lemmas about `pySplit` and `joinSpace` -/

theorem pySplitAux_nil_eq (acc : List Char) :
    pySplitAux [] acc = if acc = [] then [] else [acc.reverse] := rfl

theorem pySplitAux_cons_eq (c : Char) (cs acc : List Char) :
    pySplitAux (c :: cs) acc =
      if c.isWhitespace then
        if acc = [] then pySplitAux cs [] else acc.reverse :: pySplitAux cs []
      else pySplitAux cs (c :: acc) := rfl

theorem pySplitAux_sound (s : List Char) :
    ∀ acc, (∀ c ∈ acc, c.isWhitespace = false) →
      ∀ w ∈ pySplitAux s acc, w ≠ [] ∧ ∀ c ∈ w, c.isWhitespace = false := by
  induction s with
  | nil =>
    intro acc hacc w hw
    rw [pySplitAux_nil_eq] at hw
    by_cases h : acc = []
    · simp [h] at hw
    · rw [if_neg h, List.mem_singleton] at hw
      subst hw
      refine ⟨by simpa using h, ?_⟩
      intro c hc
      exact hacc c (List.mem_reverse.mp hc)
  | cons c cs ih =>
    intro acc hacc w hw
    rw [pySplitAux_cons_eq] at hw
    by_cases hws : c.isWhitespace = true
    · rw [if_pos hws] at hw
      by_cases h : acc = []
      · rw [if_pos h] at hw
        exact ih [] (by simp) w hw
      · rw [if_neg h, List.mem_cons] at hw
        rcases hw with hw | hw
        · subst hw
          refine ⟨by simpa using h, ?_⟩
          intro d hd
          exact hacc d (List.mem_reverse.mp hd)
        · exact ih [] (by simp) w hw
    · rw [if_neg hws] at hw
      refine ih (c :: acc) ?_ w hw
      intro d hd
      rcases List.mem_cons.mp hd with rfl | hd
      · simpa using hws
      · exact hacc d hd

/-- Every token produced by `pySplit` is nonempty and whitespace-free. -/
theorem pySplit_sound (s : List Char) :
    ∀ w ∈ pySplit s, w ≠ [] ∧ ∀ c ∈ w, c.isWhitespace = false :=
  pySplitAux_sound s [] (by simp)

theorem pySplitAux_append (w : List Char) :
    ∀ s acc, (∀ c ∈ w, c.isWhitespace = false) →
      pySplitAux (w ++ s) acc = pySplitAux s (w.reverse ++ acc) := by
  induction w with
  | nil => intro s acc _; simp
  | cons c w ih =>
    intro s acc hw
    have hc : c.isWhitespace = false := hw c (by simp)
    rw [List.cons_append, pySplitAux_cons_eq, hc, if_neg Bool.false_ne_true]
    rw [ih s (c :: acc) (fun d hd => hw d (by simp [hd]))]
    simp

/-- Splitting a space-joined list of nonempty whitespace-free words
recovers the words. -/
theorem pySplit_joinSpace (ws : List (List Char))
    (h : ∀ w ∈ ws, w ≠ [] ∧ ∀ c ∈ w, c.isWhitespace = false) :
    pySplit (joinSpace ws) = ws := by
  induction ws with
  | nil => rfl
  | cons w ws ih =>
    obtain ⟨hw, hwf⟩ := h w (by simp)
    cases ws with
    | nil =>
      show pySplitAux (w ++ []) [] = [w]
      rw [pySplitAux_append w [] [] hwf]
      rw [pySplitAux_nil_eq]
      simp [hw]
    | cons v vs =>
      have hjoin : joinSpace (w :: v :: vs) = w ++ ' ' :: joinSpace (v :: vs) := by
        simp [joinSpace]
      show pySplit (joinSpace (w :: v :: vs)) = w :: v :: vs
      rw [hjoin]
      show pySplitAux (w ++ ' ' :: joinSpace (v :: vs)) [] = w :: v :: vs
      rw [pySplitAux_append w _ [] hwf]
      have hstep : pySplitAux (' ' :: joinSpace (v :: vs)) (w.reverse ++ []) =
          w :: pySplitAux (joinSpace (v :: vs)) [] := by
        rw [pySplitAux_cons_eq]
        rw [if_pos (by decide), if_neg (by simpa using hw)]
        simp
      rw [hstep]
      have := ih (fun u hu => h u (by simp [hu]))
      simpa [pySplit] using this

/-! ## Lemmas about `chunkLoop` and `chunk_text` -/

theorem chunkLoop_succ_eq (words : List (List Char)) (csz ov fuel start : Nat) :
    chunkLoop words csz ov (fuel + 1) start =
      if start < words.length then
        if words.length ≤ start + csz then
          some [joinSpace ((words.drop start).take csz)]
        else
          (chunkLoop words csz ov fuel (start + csz - ov)).map
            (fun rest => joinSpace ((words.drop start).take csz) :: rest)
      else some [] := rfl

theorem chunkLoop_last (words : List (List Char)) (csz ov fuel start : Nat)
    (h0 : start < words.length) (h1 : words.length ≤ start + csz) :
    chunkLoop words csz ov (fuel + 1) start =
      some [joinSpace ((words.drop start).take csz)] := by
  rw [chunkLoop_succ_eq, if_pos h0, if_pos h1]

theorem chunkLoop_step (words : List (List Char)) (csz ov fuel start : Nat)
    (h1 : start + csz < words.length) :
    chunkLoop words csz ov (fuel + 1) start =
      (chunkLoop words csz ov fuel (start + csz - ov)).map
        (fun rest => joinSpace ((words.drop start).take csz) :: rest) := by
  rw [chunkLoop_succ_eq, if_pos (lt_of_le_of_lt (Nat.le_add_right start csz) h1),
    if_neg (not_le.mpr h1)]

/-- With `overlap < chunk_size` the window start strictly increases each
iteration, so fuel `words.length - start` always suffices: the source
loop terminates. -/
theorem chunkLoop_isSome (words : List (List Char)) (csz ov : Nat) (hov : ov < csz) :
    ∀ fuel start, start < words.length → words.length - start ≤ fuel →
      ∃ chunks, chunkLoop words csz ov fuel start = some chunks := by
  intro fuel
  induction fuel with
  | zero =>
    intro start h0 h1
    omega
  | succ fuel ih =>
    intro start h0 h1
    by_cases h2 : words.length ≤ start + csz
    · exact ⟨_, chunkLoop_last words csz ov fuel start h0 h2⟩
    · push_neg at h2
      obtain ⟨rest, hrest⟩ := ih (start + csz - ov) (by omega) (by omega)
      refine ⟨joinSpace ((words.drop start).take csz) :: rest, ?_⟩
      rw [chunkLoop_step words csz ov fuel start h2, hrest]
      rfl

/-- Token sequences of a chunk list after removing the `overlap`
duplicated tokens from the start of every chunk after the first,
concatenated. -/
def reconstruct (ov : Nat) : List (List Char) → List (List Char)
  | [] => []
  | c :: cs => pySplit c ++ (cs.map (fun d => (pySplit d).drop ov)).flatten

theorem chunkLoop_reconstruct (words : List (List Char)) (csz ov : Nat) (hov : ov < csz)
    (hwords : ∀ w ∈ words, w ≠ [] ∧ ∀ c ∈ w, c.isWhitespace = false) :
    ∀ fuel start, start < words.length → words.length - start ≤ fuel →
      ∃ chunks, chunkLoop words csz ov fuel start = some chunks ∧
        reconstruct ov chunks = words.drop start ∧
        (chunks.map (fun d => (pySplit d).drop ov)).flatten = words.drop (start + ov) := by
  intro fuel
  induction fuel with
  | zero =>
    intro start h0 h1
    omega
  | succ fuel ih =>
    intro start h0 h1
    have hsplit : pySplit (joinSpace ((words.drop start).take csz)) =
        (words.drop start).take csz :=
      pySplit_joinSpace _ (fun w hw =>
        hwords w (List.mem_of_mem_drop (List.mem_of_mem_take hw)))
    by_cases h2 : words.length ≤ start + csz
    · have htake : (words.drop start).take csz = words.drop start :=
        List.take_of_length_le (by simp; omega)
      have hsplit2 : pySplit (joinSpace (words.drop start)) = words.drop start := by
        rw [htake] at hsplit
        exact hsplit
      refine ⟨[joinSpace ((words.drop start).take csz)],
        chunkLoop_last words csz ov fuel start h0 h2, ?_, ?_⟩
      · rw [htake]
        simp [reconstruct, hsplit2]
      · rw [htake]
        simp only [List.map_cons, List.map_nil, List.flatten_cons, List.flatten_nil,
          List.append_nil, hsplit2]
        rw [List.drop_drop]
    · push_neg at h2
      obtain ⟨rest, hrest, hrec, hdropped⟩ := ih (start + csz - ov) (by omega) (by omega)
      have hstart' : start + csz - ov + ov = start + csz := by omega
      refine ⟨joinSpace ((words.drop start).take csz) :: rest, ?_, ?_, ?_⟩
      · rw [chunkLoop_step words csz ov fuel start h2, hrest]
        rfl
      · show pySplit (joinSpace ((words.drop start).take csz)) ++
            (rest.map (fun d => (pySplit d).drop ov)).flatten = words.drop start
        rw [hsplit, hdropped, hstart']
        have : words.drop (start + csz) = (words.drop start).drop csz := by
          rw [List.drop_drop, Nat.add_comm]
        rw [this, List.take_append_drop]
      · show (pySplit (joinSpace ((words.drop start).take csz))).drop ov ++
            (rest.map (fun d => (pySplit d).drop ov)).flatten = words.drop (start + ov)
        rw [hsplit, hdropped, hstart']
        rw [List.drop_take, List.drop_drop]
        have h3 : words.drop (start + csz) = (words.drop (start + ov)).drop (csz - ov) := by
          rw [List.drop_drop]
          congr 1
          omega
        rw [h3, List.take_append_drop]

/-- `chunk_text` terminates (the fuel suffices) whenever
`overlap < chunk_size`. -/
theorem chunk_text_isSome (text : List Char) (csz ov : Nat) (hov : ov < csz) :
    ∃ chunks, chunk_text text csz ov = some chunks := by
  unfold chunk_text
  by_cases h : text = []
  · exact ⟨[], by rw [if_pos h]⟩
  · rw [if_neg h]
    by_cases h2 : (pySplit text).length ≤ csz
    · exact ⟨[text], by rw [if_pos h2]⟩
    · push_neg at h2
      obtain ⟨chunks, hc⟩ := chunkLoop_isSome (pySplit text) csz ov hov
        (pySplit text).length 0 (by omega) (by omega)
      exact ⟨chunks, by rw [if_neg (not_le.mpr h2)]; exact hc⟩

/-- Round-trip: the chunks' token sequences, with the overlap removed
from every chunk after the first, concatenate to the token sequence of
the input text. -/
theorem chunk_text_reconstruct (text : List Char) (csz ov : Nat) (hov : ov < csz) :
    ∃ chunks, chunk_text text csz ov = some chunks ∧
      reconstruct ov chunks = pySplit text := by
  unfold chunk_text
  by_cases h : text = []
  · refine ⟨[], by rw [if_pos h], ?_⟩
    subst h
    rfl
  · rw [if_neg h]
    by_cases h2 : (pySplit text).length ≤ csz
    · refine ⟨[text], by rw [if_pos h2], ?_⟩
      simp [reconstruct]
    · push_neg at h2
      obtain ⟨chunks, hc, hrec, _⟩ := chunkLoop_reconstruct (pySplit text) csz ov hov
        (pySplit_sound text) (pySplit text).length 0 (by omega) (by omega)
      refine ⟨chunks, by rw [if_neg (not_le.mpr h2)]; exact hc, ?_⟩
      simpa using hrec

/-! ## Vector search post-processing: `search_service.search_papers` /
`find_similar_papers`

The SQL layer is external: a query returns a raw row list
`rows : List (Nat × ℚ)` of `(paper_id, similarity)` pairs.  The Python
post-processing — deduplicate by paper id keeping the highest score
(a dict in insertion order), sort descending by score, truncate to
`limit`, and fetch the `Paper` objects (skipping ids that no longer
resolve) — is embedded below. -/

/-- A row of the `papers` table, reduced to the attributes the claims
mention. -/
structure Paper where
  id : Nat
  user_id : Nat
deriving DecidableEq

/-- Python dict lookup `d[k]` (as an option), for a dict represented as
an association list in insertion order. -/
def dictGet : List (Nat × ℚ) → Nat → Option ℚ
  | [], _ => none
  | (k, v) :: d, key => if k = key then some v else dictGet d key

/-- Python dict assignment `d[k] = v`: updates the existing entry in
place (dicts preserve insertion order) or appends a new one. -/
def dictSet : List (Nat × ℚ) → Nat → ℚ → List (Nat × ℚ)
  | [], key, v => [(key, v)]
  | (k, w) :: d, key, v =>
    if k = key then (key, v) :: d else (k, w) :: dictSet d key v

/-- One step of the dedup loop:
`if paper_id not in paper_scores or score > paper_scores[paper_id]:
paper_scores[paper_id] = score`. -/
def dedupeFold (d : List (Nat × ℚ)) (row : Nat × ℚ) : List (Nat × ℚ) :=
  match dictGet d row.1 with
  | none => dictSet d row.1 row.2
  | some v => if v < row.2 then dictSet d row.1 row.2 else d

/-- The dedup loop over all returned rows, starting from the empty
dict. -/
def dedupe (rows : List (Nat × ℚ)) : List (Nat × ℚ) :=
  rows.foldl dedupeFold []

/-- The comparison used by
`sorted(paper_scores.items(), key=lambda x: x[1], reverse=True)`. -/
def scoreGe (a b : Nat × ℚ) : Prop := b.2 ≤ a.2

instance : DecidableRel scoreGe := fun a b => inferInstanceAs (Decidable (b.2 ≤ a.2))

instance : IsTotal (Nat × ℚ) scoreGe := ⟨fun a b => le_total b.2 a.2⟩

instance : IsTrans (Nat × ℚ) scoreGe := ⟨fun _ _ _ hab hbc => le_trans hbc hab⟩

/-- The final fetch loop: look up each paper id, skipping ids that do
not resolve to a `Paper` row. -/
def fetchPapers (papers : Nat → Option Paper) : List (Nat × ℚ) → List (Paper × ℚ)
  | [] => []
  | (pid, score) :: rest =>
    match papers pid with
    | some p => (p, score) :: fetchPapers papers rest
    | none => fetchPapers papers rest

/-- `search_service.SearchService.search_papers`, from the raw SQL rows
onwards: deduplicate by paper id keeping the highest score, sort
descending by score, truncate to `limit`, fetch the papers. -/
def search_papers (papers : Nat → Option Paper) (rows : List (Nat × ℚ))
    (limit : Nat) : List (Paper × ℚ) :=
  fetchPapers papers ((List.insertionSort scoreGe (dedupe rows)).take limit)

/-- The component-wise sum underlying `np.mean(vectors, axis=0)`. -/
def vsum : List (List ℚ) → List ℚ
  | [] => []
  | [v] => v
  | v :: vs => List.zipWith (· + ·) v (vsum vs)

/-- `np.mean(vectors, axis=0)`: the component-wise arithmetic mean. -/
def vmean (vs : List (List ℚ)) : List ℚ :=
  (vsum vs).map (fun x => x / (vs.length : ℚ))

/-- `search_service.SearchService.find_similar_papers`.  `neighbors` is
the external nearest-neighbour SQL query (both of its variants filter
`pe.paper_id != :paper_id`, which the claim theorem takes as a
hypothesis); the query vector passed to it is the component-wise mean
of the source paper's chunk embeddings.  A source paper with no
embeddings, or one that no longer resolves, returns `[]`. -/
def find_similar_papers (neighbors : List ℚ → List (Nat × ℚ))
    (papers : Nat → Option Paper) (paper_id : Nat)
    (source_embeddings : List (List ℚ)) (limit : Nat) : List (Paper × ℚ) :=
  if source_embeddings = [] then []
  else
    match papers paper_id with
    | none => []
    | some _ =>
      fetchPapers papers
        ((List.insertionSort scoreGe
          (dedupe (neighbors (vmean source_embeddings)))).take limit)

/-! ## Lemmas about the dedup dict -/

theorem dictGet_dictSet (d : List (Nat × ℚ)) (k k' : Nat) (v : ℚ) :
    dictGet (dictSet d k v) k' = if k = k' then some v else dictGet d k' := by
  induction d with
  | nil =>
    by_cases h : k = k' <;> simp [dictSet, dictGet, h]
  | cons kw d ih =>
    obtain ⟨k₀, w⟩ := kw
    by_cases h0 : k₀ = k
    · subst h0
      by_cases h : k₀ = k' <;> simp [dictSet, dictGet, h]
    · by_cases h : k₀ = k'
      · subst h
        simp [dictSet, dictGet, h0, Ne.symm h0]
      · simp [dictSet, dictGet, if_neg h0, if_neg h, ih]

theorem mem_dictSet_of_nodup (d : List (Nat × ℚ)) (k : Nat) (v : ℚ)
    (hd : (d.map Prod.fst).Nodup) :
    ∀ kv ∈ dictSet d k v, kv = (k, v) ∨ (kv ∈ d ∧ kv.1 ≠ k) := by
  induction d with
  | nil =>
    intro kv hkv
    simp [dictSet] at hkv
    exact Or.inl hkv
  | cons kw d ih =>
    obtain ⟨k₀, w⟩ := kw
    intro kv hkv
    simp only [List.map_cons, List.nodup_cons] at hd
    by_cases h0 : k₀ = k
    · subst h0
      rw [dictSet, if_pos rfl] at hkv
      rcases List.mem_cons.mp hkv with h | h
      · exact Or.inl h
      · refine Or.inr ⟨List.mem_cons_of_mem _ h, ?_⟩
        intro hk
        exact hd.1 (hk ▸ List.mem_map_of_mem Prod.fst h)
    · rw [dictSet, if_neg h0] at hkv
      rcases List.mem_cons.mp hkv with h | h
      · subst h
        exact Or.inr ⟨List.mem_cons_self _ _, h0⟩
      · rcases ih hd.2 kv h with h' | h'
        · exact Or.inl h'
        · exact Or.inr ⟨List.mem_cons_of_mem _ h'.1, h'.2⟩

theorem keys_dictSet_subset (d : List (Nat × ℚ)) (k : Nat) (v : ℚ) :
    ∀ k' ∈ (dictSet d k v).map Prod.fst, k' = k ∨ k' ∈ d.map Prod.fst := by
  induction d with
  | nil =>
    intro k' h
    simp [dictSet] at h
    exact Or.inl h
  | cons kw d ih =>
    obtain ⟨k₀, w⟩ := kw
    intro k' h
    by_cases h0 : k₀ = k
    · subst h0
      rw [dictSet, if_pos rfl] at h
      simp only [List.map_cons, List.mem_cons] at h
      rcases h with h | h
      · exact Or.inl h
      · exact Or.inr (by simp [h])
    · rw [dictSet, if_neg h0] at h
      simp only [List.map_cons, List.mem_cons] at h
      rcases h with h | h
      · exact Or.inr (by simp [h])
      · rcases ih k' h with h' | h'
        · exact Or.inl h'
        · exact Or.inr (by simp [h'])

theorem nodup_keys_dictSet (d : List (Nat × ℚ)) (k : Nat) (v : ℚ)
    (hd : (d.map Prod.fst).Nodup) : ((dictSet d k v).map Prod.fst).Nodup := by
  induction d with
  | nil => simp [dictSet]
  | cons kw d ih =>
    obtain ⟨k₀, w⟩ := kw
    simp only [List.map_cons, List.nodup_cons] at hd
    by_cases h0 : k₀ = k
    · subst h0
      rw [dictSet, if_pos rfl]
      simpa using hd
    · rw [dictSet, if_neg h0]
      simp only [List.map_cons, List.nodup_cons]
      refine ⟨?_, ih hd.2⟩
      intro hmem
      rcases keys_dictSet_subset d k v k₀ hmem with h | h
      · exact h0 h
      · exact hd.1 h

theorem dictGet_eq_none_iff (d : List (Nat × ℚ)) (k : Nat) :
    dictGet d k = none ↔ ∀ kv ∈ d, kv.1 ≠ k := by
  induction d with
  | nil => simp [dictGet]
  | cons kw d ih =>
    obtain ⟨k₀, w⟩ := kw
    by_cases h0 : k₀ = k
    · subst h0
      simp [dictGet]
    · simp [dictGet, if_neg h0, ih, h0]

theorem dictGet_mem (d : List (Nat × ℚ)) (k : Nat) (v : ℚ)
    (h : dictGet d k = some v) : (k, v) ∈ d := by
  induction d with
  | nil => simp [dictGet] at h
  | cons kw d ih =>
    obtain ⟨k₀, w⟩ := kw
    by_cases h0 : k₀ = k
    · subst h0
      rw [dictGet, if_pos rfl, Option.some.injEq] at h
      subst h
      exact List.mem_cons_self _ _
    · rw [dictGet, if_neg h0] at h
      exact List.mem_cons_of_mem _ (ih h)

theorem dictGet_unique_of_nodup (d : List (Nat × ℚ)) (kv : Nat × ℚ) (v : ℚ)
    (hd : (d.map Prod.fst).Nodup) (hmem : kv ∈ d) (h : dictGet d kv.1 = some v) :
    kv.2 = v := by
  induction d with
  | nil => simp at hmem
  | cons kw d ih =>
    obtain ⟨k₀, w⟩ := kw
    simp only [List.map_cons, List.nodup_cons] at hd
    rcases List.mem_cons.mp hmem with rfl | hmem'
    · rw [dictGet, if_pos rfl, Option.some.injEq] at h
      exact h
    · by_cases h0 : k₀ = kv.1
      · exact absurd (h0 ▸ List.mem_map_of_mem Prod.fst hmem') hd.1
      · rw [dictGet, if_neg h0] at h
        exact ih hd.2 hmem' h

/-- Invariant of the dedup loop: starting from a dict `d` that (a) has
no duplicate keys, (b) whose entries all occur among the already
`processed` rows and dominate every processed row with the same key,
and (c) that has an entry for every processed key, folding the
remaining rows preserves all three facts. -/
theorem dedupe_fold_invariant (rows : List (Nat × ℚ)) :
    ∀ d processed : List (Nat × ℚ),
      (d.map Prod.fst).Nodup →
      (∀ kv ∈ d, kv ∈ processed ∧ ∀ kv' ∈ processed, kv'.1 = kv.1 → kv'.2 ≤ kv.2) →
      (∀ kv ∈ processed, ∃ v, dictGet d kv.1 = some v) →
      ((rows.foldl dedupeFold d).map Prod.fst).Nodup ∧
        ∀ kv ∈ rows.foldl dedupeFold d, kv ∈ processed ++ rows ∧
          ∀ kv' ∈ processed ++ rows, kv'.1 = kv.1 → kv'.2 ≤ kv.2 := by
  induction rows with
  | nil =>
    intro d processed h1 h2 _
    simp only [List.foldl_nil, List.append_nil]
    exact ⟨h1, h2⟩
  | cons row rows ih =>
    intro d processed h1 h2 h3
    have hset_mem : ∀ v₀, dictGet d row.1 = some v₀ → v₀ < row.2 →
        ∀ kv ∈ dictSet d row.1 row.2, kv ∈ processed ++ [row] ∧
          ∀ kv' ∈ processed ++ [row], kv'.1 = kv.1 → kv'.2 ≤ kv.2 := by
      intro v₀ hget hlt kv hkv
      rcases mem_dictSet_of_nodup d row.1 row.2 h1 kv hkv with rfl | ⟨hkv', hne⟩
      · refine ⟨by simp, ?_⟩
        intro kv' hkv' hk
        rcases List.mem_append.mp hkv' with h | h
        · have := (h2 (row.1, v₀) (dictGet_mem d row.1 v₀ hget)).2 kv' h (by simpa using hk)
          exact le_of_lt (lt_of_le_of_lt this hlt)
        · rcases List.mem_singleton.mp h with rfl
          exact le_refl _
      · refine ⟨List.mem_append.mpr (Or.inl (h2 kv hkv').1), ?_⟩
        intro kv' hmem hk
        rcases List.mem_append.mp hmem with h | h
        · exact (h2 kv hkv').2 kv' h hk
        · rcases List.mem_singleton.mp h with rfl
          exact absurd hk.symm (by simpa using hne)
    have hnew : ((dedupeFold d row).map Prod.fst).Nodup ∧
        (∀ kv ∈ dedupeFold d row, kv ∈ processed ++ [row] ∧
          ∀ kv' ∈ processed ++ [row], kv'.1 = kv.1 → kv'.2 ≤ kv.2) ∧
        (∀ kv ∈ processed ++ [row], ∃ v, dictGet (dedupeFold d row) kv.1 = some v) := by
      rcases hget : dictGet d row.1 with _ | v₀
      · have hfold : dedupeFold d row = dictSet d row.1 row.2 := by
          unfold dedupeFold
          rw [hget]
        rw [hfold]
        refine ⟨nodup_keys_dictSet d row.1 row.2 h1, ?_, ?_⟩
        · intro kv hkv
          rcases mem_dictSet_of_nodup d row.1 row.2 h1 kv hkv with rfl | ⟨hkv', hne⟩
          · refine ⟨by simp, ?_⟩
            intro kv' hkv' hk
            rcases List.mem_append.mp hkv' with h | h
            · obtain ⟨v, hv⟩ := h3 kv' h
              rw [hk] at hv
              rw [hget] at hv
              cases hv
            · rcases List.mem_singleton.mp h with rfl
              exact le_refl _
          · refine ⟨List.mem_append.mpr (Or.inl (h2 kv hkv').1), ?_⟩
            intro kv' hmem hk
            rcases List.mem_append.mp hmem with h | h
            · exact (h2 kv hkv').2 kv' h hk
            · rcases List.mem_singleton.mp h with rfl
              exact absurd hk.symm (by simpa using hne)
        · intro kv hkv
          rw [dictGet_dictSet]
          by_cases hk : row.1 = kv.1
          · exact ⟨row.2, by rw [if_pos hk]⟩
          · rw [if_neg hk]
            rcases List.mem_append.mp hkv with h | h
            · exact h3 kv h
            · rcases List.mem_singleton.mp h with rfl
              exact absurd rfl hk
      · by_cases hlt : v₀ < row.2
        · have hfold : dedupeFold d row = dictSet d row.1 row.2 := by
            unfold dedupeFold
            rw [hget]
            show (if v₀ < row.2 then dictSet d row.1 row.2 else d) = dictSet d row.1 row.2
            rw [if_pos hlt]
          rw [hfold]
          refine ⟨nodup_keys_dictSet d row.1 row.2 h1, hset_mem v₀ hget hlt, ?_⟩
          intro kv hkv
          rw [dictGet_dictSet]
          by_cases hk : row.1 = kv.1
          · exact ⟨row.2, by rw [if_pos hk]⟩
          · rw [if_neg hk]
            rcases List.mem_append.mp hkv with h | h
            · exact h3 kv h
            · rcases List.mem_singleton.mp h with rfl
              exact absurd rfl hk
        · have hfold : dedupeFold d row = d := by
            unfold dedupeFold
            rw [hget]
            show (if v₀ < row.2 then dictSet d row.1 row.2 else d) = d
            rw [if_neg hlt]
          rw [hfold]
          refine ⟨h1, ?_, ?_⟩
          · intro kv hkv
            refine ⟨List.mem_append.mpr (Or.inl (h2 kv hkv).1), ?_⟩
            intro kv' hmem hk
            rcases List.mem_append.mp hmem with h | h
            · exact (h2 kv hkv).2 kv' h hk
            · rcases List.mem_singleton.mp h with rfl
              have hkv2 : kv.2 = v₀ :=
                dictGet_unique_of_nodup d kv v₀ h1 hkv (by rw [← hk]; exact hget)
              rw [hkv2]
              exact not_lt.mp hlt
          · intro kv hkv
            rcases List.mem_append.mp hkv with h | h
            · exact h3 kv h
            · rcases List.mem_singleton.mp h with rfl
              exact ⟨v₀, hget⟩
    have := ih (dedupeFold d row) (processed ++ [row]) hnew.1 hnew.2.1 hnew.2.2
    rw [List.foldl_cons]
    refine ⟨this.1, ?_⟩
    intro kv hkv
    have h := this.2 kv hkv
    constructor
    · have := h.1
      simpa [List.append_assoc] using this
    · intro kv' hmem hk
      refine h.2 kv' ?_ hk
      simpa [List.append_assoc] using hmem

/-- Top-level dedup specification: no duplicate paper ids, and every
kept entry occurs among the rows and carries the maximum score of its
paper id. -/
theorem dedupe_spec (rows : List (Nat × ℚ)) :
    ((dedupe rows).map Prod.fst).Nodup ∧
      ∀ kv ∈ dedupe rows, kv ∈ rows ∧
        ∀ kv' ∈ rows, kv'.1 = kv.1 → kv'.2 ≤ kv.2 := by
  have := dedupe_fold_invariant rows [] [] (by simp) (by simp) (by simp)
  simpa [dedupe] using this

/-! ## Lemmas about the fetch loop -/

theorem fetchPapers_scores_sublist (papers : Nat → Option Paper) (l : List (Nat × ℚ)) :
    ((fetchPapers papers l).map Prod.snd).Sublist (l.map Prod.snd) := by
  induction l with
  | nil => simp [fetchPapers]
  | cons kv rest ih =>
    obtain ⟨pid, score⟩ := kv
    rw [fetchPapers]
    rcases papers pid with _ | p
    · exact ih.cons _
    · simpa using ih.cons₂ score

theorem fetchPapers_ids_sublist (papers : Nat → Option Paper)
    (hdb : ∀ pid p, papers pid = some p → p.id = pid) (l : List (Nat × ℚ)) :
    ((fetchPapers papers l).map (fun r => r.1.id)).Sublist (l.map Prod.fst) := by
  induction l with
  | nil => simp [fetchPapers]
  | cons kv rest ih =>
    obtain ⟨pid, score⟩ := kv
    rw [fetchPapers]
    rcases hp : papers pid with _ | p
    · exact ih.cons _
    · have : p.id = pid := hdb pid p hp
      simpa [this] using ih.cons₂ pid

theorem fetchPapers_mem (papers : Nat → Option Paper) (l : List (Nat × ℚ)) :
    ∀ r ∈ fetchPapers papers l, ∃ pid, (pid, r.2) ∈ l ∧ papers pid = some r.1 := by
  induction l with
  | nil => simp [fetchPapers]
  | cons kv rest ih =>
    obtain ⟨pid, score⟩ := kv
    intro r hr
    rw [fetchPapers] at hr
    rcases hp : papers pid with _ | p
    · rw [hp] at hr
      obtain ⟨pid', h1, h2⟩ := ih r hr
      exact ⟨pid', List.mem_cons_of_mem _ h1, h2⟩
    · rw [hp] at hr
      rcases List.mem_cons.mp hr with rfl | hr'
      · exact ⟨pid, List.mem_cons_self _ _, hp⟩
      · obtain ⟨pid', h1, h2⟩ := ih r hr'
        exact ⟨pid', List.mem_cons_of_mem _ h1, h2⟩

/-! ## Claim C1 -/

/-- C1: For every query, the result list returned by `search_papers`
contains each document id at most once, is sorted descending by score
with only the maximum score per document kept after deduplication,
contains no entry with score below `min_score`, and has length at most
`limit`; a query matching zero vectors (an empty row list) returns an
empty list, never an error.  `hmin` models the SQL filter
`1 - distance >= :min_score`; `hdb` models that looking up a paper id
returns the paper with that id. -/
theorem C1_search_papers_results (papers : Nat → Option Paper) (rows : List (Nat × ℚ))
    (limit : Nat) (min_score : ℚ)
    (hmin : ∀ r ∈ rows, min_score ≤ r.2)
    (hdb : ∀ pid p, papers pid = some p → p.id = pid) :
    ((search_papers papers rows limit).map (fun r => r.1.id)).Nodup ∧
    List.Sorted (fun a b => b ≤ a) ((search_papers papers rows limit).map Prod.snd) ∧
    (∀ r ∈ search_papers papers rows limit,
      min_score ≤ r.2 ∧ (r.1.id, r.2) ∈ rows ∧
        ∀ kv ∈ rows, kv.1 = r.1.id → kv.2 ≤ r.2) ∧
    (search_papers papers rows limit).length ≤ limit ∧
    (rows = [] → search_papers papers rows limit = []) := by
  obtain ⟨hnd, hmax⟩ := dedupe_spec rows
  have hperm : List.Perm (List.insertionSort scoreGe (dedupe rows)) (dedupe rows) :=
    List.perm_insertionSort scoreGe (dedupe rows)
  have hsorted : List.Sorted scoreGe (List.insertionSort scoreGe (dedupe rows)) :=
    List.sorted_insertionSort scoreGe (dedupe rows)
  have htake : ((List.insertionSort scoreGe (dedupe rows)).take limit).Sublist
      (List.insertionSort scoreGe (dedupe rows)) :=
    List.take_sublist limit _
  refine ⟨?_, ?_, ?_, ?_, ?_⟩
  · have h1 : ((List.insertionSort scoreGe (dedupe rows)).map Prod.fst).Nodup :=
      ((hperm.map Prod.fst).symm).nodup hnd
    have h2 : (((List.insertionSort scoreGe (dedupe rows)).take limit).map Prod.fst).Nodup :=
      h1.sublist (htake.map Prod.fst)
    exact h2.sublist (fetchPapers_ids_sublist papers hdb _)
  · have h1 : ((List.insertionSort scoreGe (dedupe rows)).take limit).Pairwise
        (fun a b => scoreGe a b) := hsorted.sublist htake
    have h2 : List.Sorted (fun a b => b ≤ a)
        (((List.insertionSort scoreGe (dedupe rows)).take limit).map Prod.snd) :=
      List.pairwise_map.mpr h1
    exact h2.sublist (fetchPapers_scores_sublist papers _)
  · intro r hr
    obtain ⟨pid, hmem, hp⟩ := fetchPapers_mem papers _ r hr
    have hid : r.1.id = pid := hdb pid r.1 hp
    have hmem2 : (pid, r.2) ∈ dedupe rows := hperm.mem_iff.mp (htake.mem hmem)
    obtain ⟨hrow, hbound⟩ := hmax (pid, r.2) hmem2
    refine ⟨hmin (pid, r.2) hrow, ?_, ?_⟩
    · rw [hid]
      exact hrow
    · intro kv hkv hk
      exact hbound kv hkv (by rw [hk, hid])
  · calc (search_papers papers rows limit).length
        = ((search_papers papers rows limit).map Prod.snd).length := by simp
      _ ≤ (((List.insertionSort scoreGe (dedupe rows)).take limit).map Prod.snd).length :=
          (fetchPapers_scores_sublist papers _).length_le
      _ = ((List.insertionSort scoreGe (dedupe rows)).take limit).length := by simp
      _ ≤ limit := List.length_take_le limit _
  · intro h
    subst h
    simp [search_papers, dedupe, fetchPapers]

/-- Witness for C1 at a concrete database and row list. -/
theorem C1_witness :
    (∀ r ∈ [((1 : Nat), (1 : ℚ)), (2, 2)], (0 : ℚ) ≤ r.2) ∧
    ((search_papers (fun pid => some ⟨pid, 0⟩) [((1 : Nat), (1 : ℚ)), (2, 2)] 10).map
      (fun r => r.1.id)).Nodup :=
  ⟨by decide,
    (C1_search_papers_results (fun pid => some ⟨pid, 0⟩) [((1 : Nat), (1 : ℚ)), (2, 2)] 10 0
      (by decide)
      (fun pid p h => by
        rw [Option.some.injEq] at h
        rw [← h])).1⟩

/-! ## Claim C5 -/

/-- C5: `find_similar_papers` queries with the component-wise arithmetic
mean of the source document's chunk vectors, never includes the source
document itself in its results (the SQL filter
`pe.paper_id != :paper_id`, hypothesis `hexcl`), and returns `[]` when
the source document has zero embedded chunks (or no longer resolves),
rather than raising an error. -/
theorem C5_find_similar_papers (neighbors : List ℚ → List (Nat × ℚ))
    (papers : Nat → Option Paper) (paper_id : Nat)
    (source_embeddings : List (List ℚ)) (limit : Nat)
    (hexcl : ∀ q, ∀ r ∈ neighbors q, r.1 ≠ paper_id)
    (hdb : ∀ pid p, papers pid = some p → p.id = pid) :
    (source_embeddings = [] →
      find_similar_papers neighbors papers paper_id source_embeddings limit = []) ∧
    (papers paper_id = none →
      find_similar_papers neighbors papers paper_id source_embeddings limit = []) ∧
    (∀ p₀, papers paper_id = some p₀ → source_embeddings ≠ [] →
      find_similar_papers neighbors papers paper_id source_embeddings limit =
        fetchPapers papers ((List.insertionSort scoreGe
          (dedupe (neighbors (vmean source_embeddings)))).take limit)) ∧
    (∀ r ∈ find_similar_papers neighbors papers paper_id source_embeddings limit,
      r.1.id ≠ paper_id) := by
  refine ⟨?_, ?_, ?_, ?_⟩
  · intro h
    unfold find_similar_papers
    rw [if_pos h]
  · intro h
    unfold find_similar_papers
    by_cases he : source_embeddings = []
    · rw [if_pos he]
    · rw [if_neg he, h]
  · intro p₀ hp he
    unfold find_similar_papers
    rw [if_neg he, hp]
  · intro r hr
    unfold find_similar_papers at hr
    by_cases he : source_embeddings = []
    · rw [if_pos he] at hr
      simp at hr
    · rw [if_neg he] at hr
      rcases hp : papers paper_id with _ | p₀
      · rw [hp] at hr
        simp at hr
      · rw [hp] at hr
        obtain ⟨pid, hmem, hlook⟩ := fetchPapers_mem papers _ r hr
        have hid : r.1.id = pid := hdb pid r.1 hlook
        have hmem2 : (pid, r.2) ∈ dedupe (neighbors (vmean source_embeddings)) :=
          (List.perm_insertionSort scoreGe _).mem_iff.mp ((List.take_sublist limit _).mem hmem)
        have hrow := (dedupe_spec (neighbors (vmean source_embeddings))).2 _ hmem2
        have := hexcl (vmean source_embeddings) (pid, r.2) hrow.1
        rw [hid]
        exact this

/-- Witness for C5 at a concrete neighbour table and paper lookup. -/
theorem C5_witness :
    (∀ q : List ℚ, ∀ r ∈ [((2 : Nat), (1 : ℚ))], r.1 ≠ 1) ∧
    ∀ r ∈ find_similar_papers (fun _ => [((2 : Nat), (1 : ℚ))])
        (fun pid => some ⟨pid, 0⟩) 1 [[1, 1]] 5, r.1.id ≠ 1 :=
  ⟨fun _ r hr => by
      rcases List.mem_singleton.mp hr with rfl
      decide,
    (C5_find_similar_papers (fun _ => [((2 : Nat), (1 : ℚ))]) (fun pid => some ⟨pid, 0⟩)
      1 [[1, 1]] 5
      (fun _ r hr => by
        rcases List.mem_singleton.mp hr with rfl
        decide)
      (fun pid p h => by
        rw [Option.some.injEq] at h
        rw [← h])).2.2.2⟩

/-! ## Claim C6 -/

theorem sumSq_nonneg (a : List ℚ) : 0 ≤ sumSq a := by
  unfold sumSq dot
  rw [List.zipWith_same]
  refine List.sum_nonneg ?_
  intro x hx
  obtain ⟨y, _, rfl⟩ := List.mem_map.mp hx
  exact mul_self_nonneg y

theorem pynorm_eq_zero_iff (a : List ℚ) : pynorm a = 0 ↔ sumSq a = 0 := by
  unfold pynorm
  rw [Real.sqrt_eq_zero (by exact_mod_cast sumSq_nonneg a)]
  exact_mod_cast Iff.rfl

/-- C6: if at least one argument has zero norm (in particular the
all-zero vector), `cosine_similarity` returns exactly `0.0`; the
division branch is taken only when both norms are non-zero, and there
its divisor is non-zero — no division by zero is ever performed. -/
theorem C6_cosine_similarity_zero_guard (a b : List ℚ) :
    (pynorm a = 0 ∨ pynorm b = 0 → cosine_similarity a b = 0) ∧
    (pynorm a ≠ 0 → pynorm b ≠ 0 →
      pynorm a * pynorm b ≠ 0 ∧
      cosine_similarity a b = (dot a b : ℝ) / (pynorm a * pynorm b)) := by
  constructor
  · intro h
    unfold cosine_similarity
    rw [if_pos h]
  · intro ha hb
    refine ⟨mul_ne_zero ha hb, ?_⟩
    unfold cosine_similarity
    rw [if_neg (by push_neg; exact ⟨ha, hb⟩)]

/-- Witness for C6: the all-zero vector against an arbitrary vector. -/
theorem C6_witness : cosine_similarity [0, 0, 0] [1, 2, 3] = 0 :=
  (C6_cosine_similarity_zero_guard [0, 0, 0] [1, 2, 3]).1
    (Or.inl ((pynorm_eq_zero_iff [0, 0, 0]).mpr (by norm_num [sumSq, dot])))

/-! ## Claims C3, C7, C8 -/

/-- Evaluation of `chunk_text` on any 1200-word text with the default
parameters `chunk_size=500, overlap=50`: the window starts are
0, 450, 900 (advancing by `chunk_size - overlap = 450`), and the three
chunks hold 500, 500 and 300 word tokens. -/
theorem chunk_text_words1200 (text : List Char) (h : (pySplit text).length = 1200) :
    chunk_text text 500 50 = some [
      joinSpace (((pySplit text).drop 0).take 500),
      joinSpace (((pySplit text).drop 450).take 500),
      joinSpace (((pySplit text).drop 900).take 500)] ∧
    (chunk_text text 500 50).map (fun cs => cs.map (fun c => (pySplit c).length)) =
      some [500, 500, 300] := by
  have htext : text ≠ [] := by
    intro he
    rw [he] at h
    simp [pySplit, pySplitAux] at h
  have hsplit : ∀ s : Nat, pySplit (joinSpace (((pySplit text).drop s).take 500)) =
      ((pySplit text).drop s).take 500 := fun s =>
    pySplit_joinSpace _ (fun w hw =>
      pySplit_sound text w (List.mem_of_mem_drop (List.mem_of_mem_take hw)))
  have e1 : chunkLoop (pySplit text) 500 50 1200 0 =
      (chunkLoop (pySplit text) 500 50 1199 450).map
        (fun rest => joinSpace (((pySplit text).drop 0).take 500) :: rest) := by
    have h12 : (1200 : Nat) = 1199 + 1 := by norm_num
    rw [h12, chunkLoop_step (pySplit text) 500 50 1199 0 (by omega)]
  have e2 : chunkLoop (pySplit text) 500 50 1199 450 =
      (chunkLoop (pySplit text) 500 50 1198 900).map
        (fun rest => joinSpace (((pySplit text).drop 450).take 500) :: rest) := by
    have h11 : (1199 : Nat) = 1198 + 1 := by norm_num
    rw [h11, chunkLoop_step (pySplit text) 500 50 1198 450 (by omega)]
  have e3 : chunkLoop (pySplit text) 500 50 1198 900 =
      some [joinSpace (((pySplit text).drop 900).take 500)] := by
    have h10 : (1198 : Nat) = 1197 + 1 := by norm_num
    rw [h10, chunkLoop_last (pySplit text) 500 50 1197 900 (by omega) (by omega)]
  have hmain : chunk_text text 500 50 = some [
      joinSpace (((pySplit text).drop 0).take 500),
      joinSpace (((pySplit text).drop 450).take 500),
      joinSpace (((pySplit text).drop 900).take 500)] := by
    unfold chunk_text
    rw [if_neg htext]
    rw [if_neg (by omega)]
    rw [h, e1, e2, e3]
    rfl
  refine ⟨hmain, ?_⟩
  rw [hmain]
  have l0 : (pySplit (joinSpace (((pySplit text).drop 0).take 500))).length = 500 := by
    rw [hsplit 0]
    simp [h]
  have l1 : (pySplit (joinSpace (((pySplit text).drop 450).take 500))).length = 500 := by
    rw [hsplit 450]
    simp [h]
  have l2 : (pySplit (joinSpace (((pySplit text).drop 900).take 500))).length = 300 := by
    rw [hsplit 900]
    simp [h]
  have l0' := l0
  rw [List.drop_zero] at l0'
  simp [l0, l0', l1, l2]

/-- The concrete 1200-word input used for C3: 1200 copies of the word
`a`, space-separated. -/
def text1200 : List Char := joinSpace (List.replicate 1200 ['a'])

theorem pySplit_text1200 : pySplit text1200 = List.replicate 1200 ['a'] := by
  refine pySplit_joinSpace _ ?_
  intro w hw
  rw [List.eq_of_mem_replicate hw]
  constructor
  · simp
  · intro c hc
    rcases List.mem_singleton.mp hc with rfl
    decide

theorem pySplit_text1200_length : (pySplit text1200).length = 1200 := by
  rw [pySplit_text1200]
  exact List.length_replicate 1200 ['a']

/-- C3 (amended): a 1200-word text chunked with
`chunk_size=500, overlap=50` gives exactly three chunks whose
word-token lengths are 500, 500 and 300 (not 200), the window start
advancing by `chunk_size - overlap = 450` each step (starts 0, 450,
900). -/
theorem C3_chunk_1200_words (text : List Char) (h : (pySplit text).length = 1200) :
    chunk_text text 500 50 = some [
      joinSpace (((pySplit text).drop 0).take 500),
      joinSpace (((pySplit text).drop 450).take 500),
      joinSpace (((pySplit text).drop 900).take 500)] ∧
    (chunk_text text 500 50).map (fun cs => cs.map (fun c => (pySplit c).length)) =
      some [500, 500, 300] :=
  chunk_text_words1200 text h

/-- Counterexample to C3 as stated: on a concrete 1200-word text the
chunk token lengths are 500, 500, 300 — not the claimed
500, 500, 200. -/
theorem C3_counterexample :
    (chunk_text text1200 500 50).map (fun cs => cs.map (fun c => (pySplit c).length)) =
      some [500, 500, 300] ∧
    (some [500, 500, 300] : Option (List Nat)) ≠ some [500, 500, 200] :=
  ⟨(chunk_text_words1200 text1200 pySplit_text1200_length).2, by decide⟩

/-- Witness for C3 at the concrete 1200-word text. -/
theorem C3_witness :
    (pySplit text1200).length = 1200 ∧
    (chunk_text text1200 500 50).map (fun cs => cs.map (fun c => (pySplit c).length)) =
      some [500, 500, 300] :=
  ⟨pySplit_text1200_length,
    (C3_chunk_1200_words text1200 pySplit_text1200_length).2⟩

/-- C7: for every text (and any configuration with
`overlap < chunk_size`), concatenating the chunks' token sequences
after removing the `overlap` duplicated tokens at the start of every
chunk after the first reconstructs exactly the whitespace token
sequence of the original text; empty text yields an empty chunk
sequence, never an error. -/
theorem C7_chunk_roundtrip (text : List Char) (csz ov : Nat) (hov : ov < csz) :
    (∃ chunks, chunk_text text csz ov = some chunks ∧
      reconstruct ov chunks = pySplit text) ∧
    chunk_text [] csz ov = some [] :=
  ⟨chunk_text_reconstruct text csz ov hov, rfl⟩

/-- Witness for C7 on a concrete three-word text with
`chunk_size=2, overlap=1`. -/
theorem C7_witness :
    1 < 2 ∧
    ((∃ chunks, chunk_text ("a b c".toList) 2 1 = some chunks ∧
      reconstruct 1 chunks = pySplit ("a b c".toList)) ∧
    chunk_text [] 2 1 = some []) :=
  ⟨by decide, C7_chunk_roundtrip ("a b c".toList) 2 1 (by decide)⟩

/-- C8 (amended): the code contains no construction-time (or any other)
validation of `overlap < chunk_size`; under that precondition, however,
the window start strictly increases each iteration and `chunk_text`
terminates on every input text (fuel `words.length` suffices). -/
theorem C8_chunk_text_terminates (text : List Char) (csz ov : Nat) (hov : ov < csz) :
    ∃ chunks, chunk_text text csz ov = some chunks :=
  chunk_text_isSome text csz ov hov

/-- Counterexample to C8 as stated: a call with
`overlap = 5 ≥ chunk_size = 1` is not rejected anywhere — on a one-word
text it returns normally, and on a three-word text with
`overlap = chunk_size = 1` the loop makes no progress and never
terminates (modelled by fuel exhaustion: `none`). -/
theorem C8_counterexample :
    chunk_text ("hello".toList) 1 5 = some ["hello".toList] ∧
    chunk_text ("a b c".toList) 1 1 = none := by
  constructor
  · rfl
  · rfl

/-- Witness for C8 on a concrete text. -/
theorem C8_witness :
    1 < 2 ∧ ∃ chunks, chunk_text ("x y z".toList) 2 1 = some chunks :=
  ⟨by decide, C8_chunk_text_terminates ("x y z".toList) 2 1 (by decide)⟩

/-! ## Claim C4 -/

/-- `generate_embeddings_batch` is cleaning followed by the model, in
input order (the guard for empty input changes nothing: both sides are
`[]`). -/
theorem generate_embeddings_batch_eq (model : List Char → List ℚ)
    (texts : List (List Char)) :
    generate_embeddings_batch model texts = texts.map (fun t => model (cleanText t)) := by
  unfold generate_embeddings_batch
  by_cases h : texts = []
  · rw [if_pos h, h]
    rfl
  · rw [if_neg h, List.map_map]
    rfl

/-- C4 (amended): the single-text operation returns the
384-dimensional zero vector for blank input without consulting the
model, and always returns a vector of length 384 when the model does;
the batch operation returns one result per input in input order, but
maps blank inputs to the empty string and passes them through the
model — a blank entry yields the model's encoding of `""`, not the
zero vector. -/
theorem C4_embedding_dim_and_blank (model : List Char → List ℚ)
    (texts : List (List Char)) (text : List Char)
    (hD : ∀ t, (model t).length = 384) :
    (isBlank text = true → generate_embedding model text = List.replicate 384 0) ∧
    (generate_embedding model text).length = 384 ∧
    generate_embeddings_batch model texts = texts.map (fun t => model (cleanText t)) ∧
    (∀ v ∈ generate_embeddings_batch model texts, v.length = 384) ∧
    (isBlank text = true → generate_embeddings_batch model [text] = [model []]) := by
  refine ⟨?_, ?_, generate_embeddings_batch_eq model texts, ?_, ?_⟩
  · intro h
    unfold generate_embedding
    rw [if_pos h]
  · unfold generate_embedding
    by_cases h : isBlank text = true
    · rw [if_pos h]
      exact List.length_replicate 384 0
    · rw [if_neg h]
      exact hD _
  · intro v hv
    rw [generate_embeddings_batch_eq] at hv
    obtain ⟨t, _, rfl⟩ := List.mem_map.mp hv
    exact hD _
  · intro h
    rw [generate_embeddings_batch_eq]
    have hc : cleanText text = [] := by
      unfold cleanText
      rw [if_pos h]
    simp only [List.map_cons, List.map_nil, hc]

/-- Counterexample to C4 as stated: a model whose encoding of the empty
string is the all-ones vector makes the batch operation return the
all-ones vector — not the zero vector — for a whitespace-only input
(the model IS invoked on blanks in the batch path). -/
theorem C4_counterexample :
    generate_embeddings_batch (fun _ => List.replicate 384 1) [[' ']] =
      [List.replicate 384 (1 : ℚ)] ∧
    List.replicate 384 (1 : ℚ) ≠ List.replicate 384 0 := by
  constructor
  · rfl
  · intro hEq
    have h1 : some (1 : ℚ) = some 0 := by
      have := congrArg List.head? hEq
      rwa [List.head?_replicate, List.head?_replicate] at this
    rw [Option.some.injEq] at h1
    exact one_ne_zero h1

/-- Witness for C4 at a concrete model and blank input. -/
theorem C4_witness :
    isBlank [' '] = true ∧
    generate_embedding (fun _ => List.replicate 384 (2 : ℚ)) [' '] =
      List.replicate 384 0 :=
  ⟨by decide,
    (C4_embedding_dim_and_blank (fun _ => List.replicate 384 (2 : ℚ)) [] [' ']
      (fun _ => List.length_replicate 384 2)).1 (by decide)⟩

/-! ## Vector index store: `search_service.index_paper` /
`search_paper_content`

The `paper_embeddings` table is modelled as an explicit list of rows;
`index_paper` is the state transition it performs (delete all rows of
the paper, then insert one row per chunk of the current chunking). -/

/-- A row of the `paper_embeddings` table. -/
structure EmbRow where
  paper_id : Nat
  chunk_index : Nat
  chunk_text : List Char
  embedding : List ℚ
deriving DecidableEq

/-- The insertion loop
`for i, (chunk, embedding) in enumerate(zip(chunks, embeddings))`:
row `i` stores `chunk[:2000]` as text together with the embedding. -/
def mkRows (pid : Nat) : Nat → List (List Char × List ℚ) → List EmbRow
  | _, [] => []
  | i, ce :: rest => (⟨pid, i, ce.1.take 2000, ce.2⟩ : EmbRow) :: mkRows pid (i + 1) rest

/-- `search_service.SearchService.index_paper`.  `content` is the
`PaperContent.full_text` lookup result (`none`: no content row).  The
state transition: missing/empty content returns the store unchanged
with count 0; otherwise all existing rows of the paper are deleted
(`DELETE FROM paper_embeddings WHERE paper_id = ...`), the current text
is chunked, embedded in batch, and one row per chunk is inserted.  The
`none` branch of `chunk_text` (fuel exhaustion) is unreachable whenever
`overlap < chunk_size` (`chunk_text_isSome`). -/
def index_paper (model : List Char → List ℚ) (store : List EmbRow) (paper_id : Nat)
    (content : Option (List Char)) (chunk_size : Nat := 500) (overlap : Nat := 50) :
    List EmbRow × Nat :=
  match content with
  | none => (store, 0)
  | some full_text =>
    if full_text = [] then (store, 0)
    else
      let store1 := store.filter (fun r => r.paper_id != paper_id)
      match chunk_text full_text chunk_size overlap with
      | none => (store1, 0)
      | some chunks =>
        if chunks = [] then (store1, 0)
        else
          let embeddings := generate_embeddings_batch model chunks
          (store1 ++ mkRows paper_id 0 (chunks.zip embeddings), chunks.length)

/-- `search_service.SearchService.search_paper_content`, from the SQL
rows onwards: the database returns some selection `sel` of the paper's
stored rows ranked by embedding distance (`sim` is the external
similarity score `1 - distance`), and the Python code maps each row to
`(chunk_text, similarity, chunk_index)`. -/
def search_paper_content (sim : EmbRow → ℚ) (sel : List EmbRow) :
    List (List Char × ℚ × Nat) :=
  sel.map (fun r => (r.chunk_text, sim r, r.chunk_index))

/-! ### Lemmas about `mkRows` and `index_paper` -/

theorem mkRows_length (pid : Nat) :
    ∀ (i : Nat) (l : List (List Char × List ℚ)), (mkRows pid i l).length = l.length := by
  intro i l
  induction l generalizing i with
  | nil => rfl
  | cons ce rest ih => simp [mkRows, ih]

theorem mkRows_chunk_index (pid : Nat) :
    ∀ (i : Nat) (l : List (List Char × List ℚ)),
      (mkRows pid i l).map (fun r => r.chunk_index) = List.range' i l.length := by
  intro i l
  induction l generalizing i with
  | nil => rfl
  | cons ce rest ih => simp [mkRows, List.range'_succ, ih]

theorem mkRows_mem (pid : Nat) :
    ∀ (i : Nat) (l : List (List Char × List ℚ)), ∀ r ∈ mkRows pid i l,
      r.paper_id = pid ∧ r.chunk_index < i + l.length ∧
        ∃ ce ∈ l, r.chunk_text = ce.1.take 2000 ∧ r.embedding = ce.2 := by
  intro i l
  induction l generalizing i with
  | nil => simp [mkRows]
  | cons ce rest ih =>
    intro r hr
    rw [mkRows, List.mem_cons] at hr
    rcases hr with rfl | hr
    · exact ⟨rfl, by simp, ce, List.mem_cons_self _ _, rfl, rfl⟩
    · obtain ⟨ha, hb, ce', hce', hc, hd⟩ := ih (i + 1) r hr
      refine ⟨ha, ?_, ce', List.mem_cons_of_mem _ hce', hc, hd⟩
      rw [List.length_cons]
      omega

theorem mem_zip_map (f : List Char → List ℚ) :
    ∀ (l : List (List Char)) (p : List Char × List ℚ),
      p ∈ l.zip (l.map f) → p.1 ∈ l ∧ p.2 = f p.1 := by
  intro l
  induction l with
  | nil => simp
  | cons c rest ih =>
    intro p hp
    rw [List.map_cons, List.zip_cons_cons, List.mem_cons] at hp
    rcases hp with rfl | hp
    · exact ⟨List.mem_cons_self _ _, rfl⟩
    · obtain ⟨h1, h2⟩ := ih p hp
      exact ⟨List.mem_cons_of_mem _ h1, h2⟩

theorem chunk_text_ne_nil (text : List Char) (csz ov : Nat)
    (chunks : List (List Char)) (htext : text ≠ [])
    (h : chunk_text text csz ov = some chunks) : chunks ≠ [] := by
  unfold chunk_text at h
  rw [if_neg htext] at h
  by_cases h2 : (pySplit text).length ≤ csz
  · rw [if_pos h2, Option.some.injEq] at h
    rw [← h]
    simp
  · rw [if_neg h2] at h
    push_neg at h2
    rcases hfuel : (pySplit text).length with _ | fuel
    · omega
    · rw [hfuel] at h
      rw [chunkLoop_succ_eq] at h
      rw [if_pos (by omega)] at h
      by_cases h3 : (pySplit text).length ≤ 0 + csz
      · rw [if_pos h3, Option.some.injEq] at h
        rw [← h]
        simp
      · rw [if_neg h3] at h
        rcases hrec : chunkLoop (pySplit text) csz ov fuel (0 + csz - ov) with _ | rest
        · rw [hrec] at h
          cases h
        · rw [hrec] at h
          have h' : joinSpace (((pySplit text).drop 0).take csz) :: rest = chunks :=
            Option.some.inj h
          rw [← h']
          simp

theorem index_paper_some (model : List Char → List ℚ) (store : List EmbRow)
    (pid : Nat) (text : List Char) (csz ov : Nat) :
    index_paper model store pid (some text) csz ov =
      if text = [] then (store, 0)
      else
        match chunk_text text csz ov with
        | none => (store.filter (fun r => r.paper_id != pid), 0)
        | some chunks =>
          if chunks = [] then (store.filter (fun r => r.paper_id != pid), 0)
          else
            (store.filter (fun r => r.paper_id != pid) ++
              mkRows pid 0 (chunks.zip (generate_embeddings_batch model chunks)),
             chunks.length) := rfl

theorem index_paper_some_eq (model : List Char → List ℚ) (store : List EmbRow)
    (pid : Nat) (text : List Char) (csz ov : Nat) (chunks : List (List Char))
    (htext : text ≠ []) (hct : chunk_text text csz ov = some chunks) :
    index_paper model store pid (some text) csz ov =
      (store.filter (fun r => r.paper_id != pid) ++
        mkRows pid 0 (chunks.zip (generate_embeddings_batch model chunks)),
       chunks.length) := by
  have hnil := chunk_text_ne_nil text csz ov chunks htext hct
  rw [index_paper_some, if_neg htext]
  split
  · next heq =>
    rw [hct] at heq
    cases heq
  · next chunks' heq =>
    rw [hct, Option.some.injEq] at heq
    subst heq
    rw [if_neg hnil]

/-! ## Claim C2 -/

theorem filter_mkRows_ne (pid : Nat) (i : Nat) (l : List (List Char × List ℚ)) :
    (mkRows pid i l).filter (fun r => r.paper_id != pid) = [] := by
  rw [List.filter_eq_nil_iff]
  intro r hr
  have := (mkRows_mem pid i l r hr).1
  simp [this]

theorem filter_mkRows_eq (pid : Nat) (i : Nat) (l : List (List Char × List ℚ)) :
    (mkRows pid i l).filter (fun r => r.paper_id == pid) = mkRows pid i l := by
  rw [List.filter_eq_self]
  intro r hr
  have := (mkRows_mem pid i l r hr).1
  simp [this]

theorem zip_batch_length (model : List Char → List ℚ) (chunks : List (List Char)) :
    (chunks.zip (generate_embeddings_batch model chunks)).length = chunks.length := by
  rw [generate_embeddings_batch_eq, List.length_zip, List.length_map]
  omega

/-- C2: re-indexing a document first deletes all of its existing
vectors and then inserts one vector per chunk of the current chunking:
after indexing `text1` (N chunks) and then re-indexing `text2`
(M chunks, M < N), exactly M vectors are associated with the document,
with chunk indices `0..M-1`, and zero orphaned vectors survive from the
first indexing. -/
theorem C2_reindex_exact_rows (model : List Char → List ℚ) (store : List EmbRow)
    (pid : Nat) (text1 text2 : List Char) (csz ov : Nat) (chs1 chs2 : List (List Char))
    (h1 : text1 ≠ []) (h2 : text2 ≠ [])
    (hc1 : chunk_text text1 csz ov = some chs1)
    (hc2 : chunk_text text2 csz ov = some chs2)
    (hMN : chs2.length < chs1.length) :
    (index_paper model store pid (some text1) csz ov).2 = chs1.length ∧
    (index_paper model (index_paper model store pid (some text1) csz ov).1 pid
      (some text2) csz ov).2 = chs2.length ∧
    ((index_paper model (index_paper model store pid (some text1) csz ov).1 pid
      (some text2) csz ov).1.filter (fun r => r.paper_id == pid)).length = chs2.length ∧
    ((index_paper model (index_paper model store pid (some text1) csz ov).1 pid
      (some text2) csz ov).1.filter (fun r => r.paper_id == pid)).map
        (fun r => r.chunk_index) = List.range chs2.length ∧
    ∀ r ∈ (index_paper model (index_paper model store pid (some text1) csz ov).1 pid
      (some text2) csz ov).1, r.paper_id = pid → r.chunk_index < chs2.length := by
  rw [index_paper_some_eq model store pid text1 csz ov chs1 h1 hc1]
  rw [index_paper_some_eq model _ pid text2 csz ov chs2 h2 hc2]
  have hFid : (store.filter (fun r => r.paper_id != pid)).filter
      (fun r => r.paper_id != pid) = store.filter (fun r => r.paper_id != pid) := by
    rw [List.filter_eq_self]
    intro r hr
    exact (List.mem_filter.mp hr).2
  have hFpid : (store.filter (fun r => r.paper_id != pid)).filter
      (fun r => r.paper_id == pid) = [] := by
    rw [List.filter_eq_nil_iff]
    intro r hr
    have := (List.mem_filter.mp hr).2
    simp at this
    simp [this]
  have hs1 : (store.filter (fun r => r.paper_id != pid) ++
      mkRows pid 0 (chs1.zip (generate_embeddings_batch model chs1))).filter
        (fun r => r.paper_id != pid) = store.filter (fun r => r.paper_id != pid) := by
    rw [List.filter_append, hFid, filter_mkRows_ne, List.append_nil]
  rw [hs1]
  have hR2 : (store.filter (fun r => r.paper_id != pid) ++
      mkRows pid 0 (chs2.zip (generate_embeddings_batch model chs2))).filter
        (fun r => r.paper_id == pid) =
      mkRows pid 0 (chs2.zip (generate_embeddings_batch model chs2)) := by
    rw [List.filter_append, hFpid, filter_mkRows_eq, List.nil_append]
  rw [hR2]
  refine ⟨rfl, rfl, ?_, ?_, ?_⟩
  · rw [mkRows_length, zip_batch_length]
  · rw [mkRows_chunk_index, zip_batch_length, List.range_eq_range']
  · intro r hr hpid
    rcases List.mem_append.mp hr with h | h
    · have := (List.mem_filter.mp h).2
      simp [hpid] at this
    · have := (mkRows_mem pid 0 _ r h).2.1
      rw [zip_batch_length] at this
      omega

/-- Witness for C2: index a 5-word text with `chunk_size=2, overlap=0`
(3 chunks) and re-index a 3-word text (2 chunks); the surviving chunk
indices are exactly `0, 1`. -/
theorem C2_witness :
    chunk_text ("a b c d e".toList) 2 0 =
      some ["a b".toList, "c d".toList, "e".toList] ∧
    chunk_text ("a b c".toList) 2 0 = some ["a b".toList, "c".toList] ∧
    ((index_paper (fun _ => ([] : List ℚ)) (index_paper (fun _ => ([] : List ℚ)) [] 7
      (some ("a b c d e".toList)) 2 0).1 7 (some ("a b c".toList)) 2 0).1.filter
        (fun r => r.paper_id == 7)).map (fun r => r.chunk_index) = List.range 2 :=
  ⟨by decide, by decide,
    (C2_reindex_exact_rows (fun _ => []) [] 7 ("a b c d e".toList) ("a b c".toList) 2 0
      ["a b".toList, "c d".toList, "e".toList] ["a b".toList, "c".toList]
      (by decide) (by decide) (by decide) (by decide) (by decide)).2.2.2.1⟩

/-! ## Claim C10 -/

/-- A nonempty whitespace-free character list is a single word under
`pySplit`. -/
theorem pySplit_single_word (w : List Char) (hw : w ≠ [])
    (hwf : ∀ c ∈ w, c.isWhitespace = false) : pySplit w = [w] := by
  have h := pySplitAux_append w [] [] hwf
  rw [List.append_nil] at h
  rw [pySplit, h, pySplitAux_nil_eq]
  rw [if_neg (by simpa using hw)]
  simp

/-- C10 (amended): every stored row of an indexed document holds the
first 2000 characters of its chunk as text, while its embedding is the
model's encoding of the chunk cleaned by `cleanText` (truncated at the
embedding service's 8000-character ceiling — the untruncated chunk
whenever the chunk has at most 8000 characters); consequently
in-document search returns at most the first 2000 characters of each
chunk, never the full embedded text of a longer chunk. -/
theorem C10_stored_text_truncated (model : List Char → List ℚ) (store : List EmbRow)
    (pid : Nat) (text : List Char) (csz ov : Nat) (chunks : List (List Char))
    (sim : EmbRow → ℚ) (sel : List EmbRow)
    (htext : text ≠ [])
    (hct : chunk_text text csz ov = some chunks)
    (hsel : ∀ r ∈ sel, r ∈ (index_paper model store pid (some text) csz ov).1 ∧
      r.paper_id = pid) :
    (∀ r ∈ (index_paper model store pid (some text) csz ov).1, r.paper_id = pid →
      ∃ c ∈ chunks, r.chunk_text = c.take 2000 ∧ r.embedding = model (cleanText c) ∧
        r.chunk_text.length ≤ 2000) ∧
    (∀ x ∈ search_paper_content sim sel,
      ∃ c ∈ chunks, x.1 = c.take 2000 ∧ x.1.length ≤ 2000 ∧
        (2000 < c.length → x.1 ≠ c)) := by
  have hstored : ∀ r ∈ (index_paper model store pid (some text) csz ov).1,
      r.paper_id = pid →
      ∃ c ∈ chunks, r.chunk_text = c.take 2000 ∧ r.embedding = model (cleanText c) ∧
        r.chunk_text.length ≤ 2000 := by
    intro r hr hpid
    rw [index_paper_some_eq model store pid text csz ov chunks htext hct] at hr
    rcases List.mem_append.mp hr with h | h
    · have := (List.mem_filter.mp h).2
      simp [hpid] at this
    · obtain ⟨_, _, ce, hce, htxt, hemb⟩ := mkRows_mem pid 0 _ r h
      rw [generate_embeddings_batch_eq] at hce
      obtain ⟨hmem, hval⟩ := mem_zip_map (fun c => model (cleanText c)) chunks ce hce
      refine ⟨ce.1, hmem, htxt, by rw [hemb, hval], ?_⟩
      rw [htxt, List.length_take]
      omega
  refine ⟨hstored, ?_⟩
  intro x hx
  obtain ⟨r, hr, rfl⟩ := List.mem_map.mp hx
  obtain ⟨hmem, hpid⟩ := hsel r hr
  obtain ⟨c, hc, htxt, _, hlen⟩ := hstored r hmem hpid
  refine ⟨c, hc, htxt, hlen, ?_⟩
  intro hclen hEq
  have := congrArg List.length hEq
  rw [htxt, List.length_take] at this
  omega

/-- Counterexample to C10 as stated: a single-word 9000-character text
is one chunk; its stored embedding is the model applied to the first
8000 characters (the embedding-service ceiling), not to the untruncated
9000-character chunk. -/
theorem C10_counterexample :
    ((index_paper (fun t => [(t.length : ℚ)]) [] 1
      (some (List.replicate 9000 'a')) 500 50).1.map (fun r => r.embedding)) =
      [[(8000 : ℚ)]] ∧
    (fun t : List Char => [(t.length : ℚ)]) (List.replicate 9000 'a') = [(9000 : ℚ)] ∧
    ([(8000 : ℚ)] : List ℚ) ≠ [(9000 : ℚ)] := by
  have hlen9000 : (List.replicate 9000 'a').length = 9000 :=
    List.length_replicate 9000 'a'
  have hne : List.replicate 9000 'a' ≠ [] := by
    intro h
    have h2 := congrArg List.length h
    rw [List.length_replicate] at h2
    simp at h2
  have hwf : ∀ c ∈ List.replicate 9000 'a', c.isWhitespace = false := by
    intro c hc
    rw [List.eq_of_mem_replicate hc]
    decide
  have hsplit : pySplit (List.replicate 9000 'a') = [List.replicate 9000 'a'] :=
    pySplit_single_word _ hne hwf
  have hct : chunk_text (List.replicate 9000 'a') 500 50 =
      some [List.replicate 9000 'a'] := by
    unfold chunk_text
    rw [if_neg hne]
    rw [if_pos (by rw [hsplit, List.length_singleton]; omega)]
  have hiE : (List.replicate 9000 'a').isEmpty = false := by
    rw [List.isEmpty_eq_false]
    exact hne
  have hblank : isBlank (List.replicate 9000 'a') = false := by
    unfold isBlank pyStrip
    rw [List.dropWhile_replicate]
    rw [if_neg (by decide)]
    rw [List.reverse_replicate, List.dropWhile_replicate]
    rw [if_neg (by decide)]
    rw [List.reverse_replicate]
    rw [hiE]
    rfl
  have hclean : cleanText (List.replicate 9000 'a') = List.replicate 8000 'a' := by
    unfold cleanText
    rw [hblank]
    rw [if_neg Bool.false_ne_true]
    rw [hlen9000]
    rw [if_pos (by omega)]
    rw [List.take_replicate]
    norm_num
  refine ⟨?_, ?_, ?_⟩
  · rw [index_paper_some_eq (fun t => [(t.length : ℚ)]) [] 1 (List.replicate 9000 'a')
      500 50 [List.replicate 9000 'a'] hne hct]
    dsimp only
    rw [generate_embeddings_batch_eq]
    rw [List.map_cons, List.map_nil]
    rw [List.zip_cons_cons, List.zip_nil_left]
    rw [List.filter_nil, List.nil_append]
    rw [mkRows, mkRows]
    rw [List.map_cons, List.map_nil]
    show [[((cleanText (List.replicate 9000 'a')).length : ℚ)]] = [[(8000 : ℚ)]]
    rw [hclean, List.length_replicate]
    norm_num
  · show [((List.replicate 9000 'a').length : ℚ)] = [(9000 : ℚ)]
    rw [List.length_replicate]
    norm_num
  · intro hEq
    have h1 := congrArg (fun l => l.headD (0 : ℚ)) hEq
    simp only [List.headD_cons] at h1
    norm_num at h1

/-- Witness for C10 on a small two-character text. -/
theorem C10_witness :
    ("ab".toList ≠ ([] : List Char)) ∧
    chunk_text ("ab".toList) 500 50 = some ["ab".toList] ∧
    ∀ x ∈ search_paper_content (fun _ => (0 : ℚ))
      [(⟨1, 0, "ab".toList, []⟩ : EmbRow)],
      ∃ c ∈ ["ab".toList], x.1 = c.take 2000 ∧ x.1.length ≤ 2000 ∧
        (2000 < c.length → x.1 ≠ c) :=
  ⟨by decide, by decide,
    (C10_stored_text_truncated (fun _ => []) [] 1 ("ab".toList) 500 50 ["ab".toList]
      (fun _ => 0) [(⟨1, 0, "ab".toList, []⟩ : EmbRow)]
      (by decide) (by decide) (by decide)).2⟩

/-! ## Paper service: `paper_service.check_duplicate` /
`create_paper_from_upload` (claim C9)

The `papers` and `processing_jobs` tables are modelled as row lists.
`pdf_processor.process_pdf` first computes the SHA-256 fingerprint of
the raw bytes (the external hash is the injected capability `sha256`)
and then extracts the text, raising on a malformed document
(`extract_ok`); only then is the owner-scoped duplicate check run. -/

/-- A row of the `papers` table, reduced to the attributes C9 needs. -/
structure PaperRec where
  id : Nat
  user_id : Nat
  file_hash : Nat
deriving DecidableEq

/-- A row of the `processing_jobs` table. -/
structure JobRec where
  id : Nat
  paper_id : Nat
  user_id : Nat
deriving DecidableEq

/-- The database state seen by the paper service. -/
structure DB where
  papers : List PaperRec
  jobs : List JobRec
deriving DecidableEq

/-- `paper_service.PaperService.check_duplicate`: the first paper of
this owner with this content fingerprint, if any. -/
def check_duplicate (db : DB) (user_id file_hash : Nat) : Option PaperRec :=
  db.papers.find? (fun p => p.user_id == user_id && p.file_hash == file_hash)

/-- `paper_service.PaperService.create_paper_from_upload`.  Bytes are
`List Nat`; `sha256` is the external fingerprint function, `extract_ok`
models whether PDF extraction succeeds, and `freshPid`/`freshJid` are
the database-generated ids.  On the duplicate branch the function
raises before anything is added: the state comes back unchanged and no
paper row and no job row are created. -/
def create_paper_from_upload (sha256 : List Nat → Nat) (extract_ok : List Nat → Bool)
    (freshPid freshJid : Nat) (db : DB) (user_id : Nat) (file_content : List Nat) :
    DB × Except String (Nat × Nat) :=
  let file_hash := sha256 file_content
  if extract_ok file_content = false then
    (db, Except.error "Failed to process PDF")
  else
    match check_duplicate db user_id file_hash with
    | some _ => (db, Except.error "This paper has already been uploaded")
    | none =>
      (⟨db.papers ++ [⟨freshPid, user_id, file_hash⟩],
        db.jobs ++ [⟨freshJid, freshPid, user_id⟩]⟩,
       Except.ok (freshPid, freshJid))

/-- C9: for every owner and byte content (whose fingerprint is not yet
present for either owner), the first upload succeeds and creates one
paper row and one job; uploading the same bytes again for the same
owner fails with the duplicate error, leaving the database unchanged
(no paper row, no job); uploading the identical bytes for a different
owner succeeds — deduplication is scoped per owner and keyed on the
SHA-256 of the raw bytes. -/
theorem C9_duplicate_per_owner (sha256 : List Nat → Nat) (extract_ok : List Nat → Bool)
    (db : DB) (u1 u2 : Nat) (content : List Nat) (pid1 jid1 pid2 jid2 pid3 jid3 : Nat)
    (hok : extract_ok content = true)
    (h1 : check_duplicate db u1 (sha256 content) = none)
    (h2 : check_duplicate db u2 (sha256 content) = none)
    (hu : u1 ≠ u2) :
    create_paper_from_upload sha256 extract_ok pid1 jid1 db u1 content =
      (⟨db.papers ++ [⟨pid1, u1, sha256 content⟩], db.jobs ++ [⟨jid1, pid1, u1⟩]⟩,
        Except.ok (pid1, jid1)) ∧
    create_paper_from_upload sha256 extract_ok pid2 jid2
      ⟨db.papers ++ [⟨pid1, u1, sha256 content⟩], db.jobs ++ [⟨jid1, pid1, u1⟩]⟩ u1 content =
      (⟨db.papers ++ [⟨pid1, u1, sha256 content⟩], db.jobs ++ [⟨jid1, pid1, u1⟩]⟩,
        Except.error "This paper has already been uploaded") ∧
    (create_paper_from_upload sha256 extract_ok pid3 jid3
      ⟨db.papers ++ [⟨pid1, u1, sha256 content⟩], db.jobs ++ [⟨jid1, pid1, u1⟩]⟩ u2 content).2 =
      Except.ok (pid3, jid3) := by
  have hok' : (extract_ok content = false) = False := by
    rw [hok]
    simp
  have hdup1 : check_duplicate ⟨db.papers ++ [⟨pid1, u1, sha256 content⟩],
      db.jobs ++ [⟨jid1, pid1, u1⟩]⟩ u1 (sha256 content) =
      some ⟨pid1, u1, sha256 content⟩ := by
    unfold check_duplicate
    rw [List.find?_append]
    unfold check_duplicate at h1
    rw [h1]
    simp [List.find?]
  have hdup2 : check_duplicate ⟨db.papers ++ [⟨pid1, u1, sha256 content⟩],
      db.jobs ++ [⟨jid1, pid1, u1⟩]⟩ u2 (sha256 content) = none := by
    unfold check_duplicate
    rw [List.find?_append]
    unfold check_duplicate at h2
    rw [h2]
    simp only [List.find?, Option.none_orElse]
    have hne12 : (u1 == u2) = false := beq_eq_false_iff_ne.mpr hu
    rw [hne12, Bool.false_and]
    rfl
  refine ⟨?_, ?_, ?_⟩
  · unfold create_paper_from_upload
    rw [if_neg (by rw [hok']; exact not_false)]
    rw [h1]
  · unfold create_paper_from_upload
    rw [if_neg (by rw [hok']; exact not_false)]
    rw [hdup1]
  · unfold create_paper_from_upload
    rw [if_neg (by rw [hok']; exact not_false)]
    rw [hdup2]

/-- Witness for C9 at a concrete hash function and empty database. -/
theorem C9_witness :
    check_duplicate ⟨[], []⟩ 0 1 = none ∧
    (create_paper_from_upload (fun c => c.length) (fun _ => true) 11 21
      ⟨[⟨10, 0, 1⟩], [⟨20, 10, 0⟩]⟩ 0 [7]).2 =
      Except.error "This paper has already been uploaded" :=
  ⟨rfl,
    by
      have h := (C9_duplicate_per_owner (fun c => c.length) (fun _ => true)
        ⟨[], []⟩ 0 1 [7] 10 20 11 21 12 22 rfl rfl rfl (by decide)).2.1
      exact congrArg Prod.snd h⟩
